import Mathlib

/-!
# Verification of the RPC property-value marshaling core

A shallow embedding of `pkg/resource/plugin/rpc.go`: the bidirectional
conversion between the typed property model of the engine (`resource.PropertyValue`
/ `resource.PropertyMap`) and the generic wire document shape
(`structpb.Value` / `structpb.Struct`), together with the configuration
document parser (`compiler.parser.Parse`).

Modelling conventions:
* The `float64` payloads of Go are carried opaquely (no arithmetic is performed on
  them anywhere in the marshaling code), so they are embedded as `Int`.
* Go maps (`resource.PropertyMap`, `structpb.Struct.Fields`,
  `map[string]bool`) are embedded as association lists.  A Go map has unique
  keys and no observable order; the canonical representation here is the
  key-sorted association list.  `props.StableKeys()` (iterate keys in sorted
  order, indexing the map at each key) is embedded as sorting the entry list
  by key, which is the same iteration for any duplicate-free entry list.
  The `nil` vs. non-`nil` distinction of the returned `map[string]bool` of
  unknown keys is the `[]` vs. non-`[]` distinction of a key list.
* `contract.Assert` / `contract.Assertf` / `contract.Failf` abort the
  process; fallible computations therefore return `Option`, with `none` for
  a fatal invariant violation.  `glog` logging has no observable effect and
  is dropped.
-/

/-- Modelled from the spec: `resource.Asset` is not under `src/`.  §3/§4.6: an
opaque content reference — inline content or a path/URI. -/
inductive Asset where
  | text (s : String)
  | path (s : String)
  | uri (s : String)

/-- Modelled from the spec: `resource.Archive` is not under `src/`.  §3/§4.6:
an opaque content reference held by location. -/
inductive Archive where
  | path (s : String)
  | uri (s : String)

/-- `resource.PropertyValue`: the closed tagged variant of the typed property
model (spec §3); the variant set is exactly the one the `Is*` tests in
`rpc.go` enumerate. -/
inductive PropertyValue where
  | null
  | bool (b : Bool)
  | number (n : Int)
  | string (s : String)
  | array (elems : List PropertyValue)
  | asset (a : Asset)
  | archive (a : Archive)
  | object (m : List (String × PropertyValue))
  | computed (element : PropertyValue)
  | output (element : PropertyValue)

/-- `resource.PropertyMap`, as an association list (see header). -/
abbrev PropertyMap := List (String × PropertyValue)

/-- `structpb.Value`: the generic "JSON-like" wire shape.  A `Struct` is its
field map as an association list. -/
inductive WireValue where
  | null
  | bool (b : Bool)
  | number (n : Int)
  | string (s : String)
  | list (vs : List WireValue)
  | struct (fields : List (String × WireValue))

/-- Byte-wise lexicographic `<` on character lists (the order used by
`sort.Strings` and `resource.PropertyMap.StableKeys` in Go). -/
def charsLt : List Char → List Char → Bool
  | [], [] => false
  | [], _ :: _ => true
  | _ :: _, [] => false
  | a :: as, b :: bs =>
    if a.val.toNat < b.val.toNat then true
    else if b.val.toNat < a.val.toNat then false
    else charsLt as bs

def strLt (a b : String) : Bool := charsLt a.data b.data

def strLe (a b : String) : Bool := strLt a b || a == b

/-- Iterating a Go map in sorted key order (`StableKeys` on the marshal side,
`sort.Strings(keys)` on the unmarshal side), as sorting the entry list. -/
def sortEntries {α : Type} (l : List (String × α)) : List (String × α) :=
  List.insertionSort (fun a b => strLe a.1 b.1 = true) l

/-- First-match association-list lookup (Go map indexing). -/
def lookupKey {α : Type} : List (String × α) → String → Option α
  | [], _ => none
  | (k, v) :: rest, key => if k == key then some v else lookupKey rest key

def PropertyValue.IsNull : PropertyValue → Bool
  | .null => true
  | _ => false

def PropertyValue.IsComputed : PropertyValue → Bool
  | .computed _ => true
  | _ => false

def PropertyValue.IsOutput : PropertyValue → Bool
  | .output _ => true
  | _ => false

/-! Size measures for the well-founded recursion of the marshaler (the Go
functions are mutually recursive through object maps, arrays, and the
asset/archive serialization). -/

mutual
def psize : PropertyValue → Nat
  | .null | .bool _ | .number _ | .string _ => 1
  | .array es => 1 + psizeL es
  | .asset _ => 8
  | .archive _ => 8
  | .object m => 1 + msizeE m
  | .computed e => 1 + psize e
  | .output e => 1 + psize e

def psizeL : List PropertyValue → Nat
  | [] => 0
  | e :: rest => 1 + psize e + psizeL rest

def msizeE : List (String × PropertyValue) → Nat
  | [] => 0
  | (_, v) :: rest => 1 + psize v + msizeE rest
end

theorem msizeE_perm {l₁ l₂ : List (String × PropertyValue)} (h : l₁.Perm l₂) :
    msizeE l₁ = msizeE l₂ := by
  induction h with
  | nil => rfl
  | cons x _ ih => cases x; simp [msizeE, ih]
  | swap x y l => cases x; cases y; simp [msizeE]; omega
  | trans _ _ ih₁ ih₂ => omega

theorem msizeE_sortEntries (m : List (String × PropertyValue)) :
    msizeE (sortEntries m) = msizeE m :=
  msizeE_perm (List.perm_insertionSort _ m)

/-- `plugin.MarshalOptions` (`rpc.go`). -/
structure MarshalOptions where
  SkipNulls : Bool
  OldURNs : Bool
  RawResources : Bool

/-- The Go zero value of `MarshalOptions` (the "default" options). -/
def defaultOpts : MarshalOptions := ⟨false, false, false⟩

/-! ## Asset/Archive codec

Modelled from the spec: `resource.Asset.Serialize`, `resource.Archive.Serialize`,
`resource.DeserializeAsset`, `resource.DeserializeArchive` and
`PropertyMap.Mappable` are not under `src/`.  Per §4.6, `Serialize` produces a
self-describing generic mapping — a reserved discriminator field plus payload
fields (inline content or a location reference) — and recognition inspects the
discriminator field and the required companion fields; absence or malformation
means "not a match".  The recognizers operate on the plain
view of the decoded mapping (`Mappable`), embedded here as the property map itself. -/

/-- Modelled from the spec: the reserved discriminator field name (§4.6). -/
def SigKey : String := "sig"

/-- Modelled from the spec: the discriminator value marking an Asset. -/
def AssetSig : String := "asset"

/-- Modelled from the spec: the discriminator value marking an Archive. -/
def ArchiveSig : String := "archive"

/-- Modelled from the spec: `Asset.Serialize` — discriminator plus one payload
field holding the inline content or location reference. -/
def Asset.Serialize : Asset → List (String × PropertyValue)
  | .text s => [(SigKey, .string AssetSig), ("text", .string s)]
  | .path s => [(SigKey, .string AssetSig), ("path", .string s)]
  | .uri s => [(SigKey, .string AssetSig), ("uri", .string s)]

/-- Modelled from the spec: `Archive.Serialize`. -/
def Archive.Serialize : Archive → List (String × PropertyValue)
  | .path s => [(SigKey, .string ArchiveSig), ("path", .string s)]
  | .uri s => [(SigKey, .string ArchiveSig), ("uri", .string s)]

/-- Does the mapping carry the given discriminator value at the reserved
discriminator field? -/
def hasSig (obj : PropertyMap) (sig : String) : Bool :=
  match lookupKey obj SigKey with
  | some (.string s) => s == sig
  | _ => false

/-- Modelled from the spec: `resource.DeserializeAsset` — check the
discriminator, then reconstruct from the first present companion field; a
mapping without discriminator or companion is not a match. -/
def DeserializeAsset (obj : PropertyMap) : Option Asset :=
  if hasSig obj AssetSig then
    match lookupKey obj ("text") with
    | some (.string s) => some (.text s)
    | _ =>
      match lookupKey obj ("path") with
      | some (.string s) => some (.path s)
      | _ =>
        match lookupKey obj ("uri") with
        | some (.string s) => some (.uri s)
        | _ => none
  else none

/-- Modelled from the spec: `resource.DeserializeArchive`. -/
def DeserializeArchive (obj : PropertyMap) : Option Archive :=
  if hasSig obj ArchiveSig then
    match lookupKey obj ("path") with
    | some (.string s) => some (.path s)
    | _ =>
      match lookupKey obj ("uri") with
      | some (.string s) => some (.uri s)
      | _ => none
  else none

/-! ## Marshaler (`rpc.go` lines 27–121, 197–238) -/

/-- `MarshalNull` (`rpc.go`). -/
def MarshalNull (_opts : MarshalOptions) : WireValue := .null

/-- `MarshalString` (`rpc.go`). -/
def MarshalString (s : String) (_opts : MarshalOptions) : WireValue := .string s

/-- `MarshalStruct` (`rpc.go`). -/
def MarshalStruct (fields : List (String × WireValue)) (_opts : MarshalOptions) : WireValue :=
  .struct fields

mutual
/-- `MarshalPropertyValue` (`rpc.go` lines 68–121).  The `Bool` is the
"known" flag; `none` is a `contract.Assert` failure.  The final
`contract.Failf` branch for an unrecognized variant is unreachable: the
variant set is closed. -/
def MarshalPropertyValue (v : PropertyValue) (opts : MarshalOptions) :
    Option (WireValue × Bool) :=
  match v with
  | .null => some (MarshalNull opts, true)
  | .bool b => some (.bool b, true)
  | .number n => some (.number n, true)
  | .string s => some (MarshalString s opts, true)
  | .array elems =>
    match marshalArrayElems elems opts with
    | none => none
    | some (ws, outcome) => some (.list ws, outcome)
  | .asset a => MarshalAsset a opts
  | .archive a => MarshalArchive a opts
  | .object m =>
    match MarshalPropertiesWithUnknowns m opts with
    | none => none
    | some (obj, unks) => some (MarshalStruct obj opts, unks = [])
  | .computed e =>
    if e.IsComputed then none
    else
      match MarshalPropertyValue e opts with
      | none => none
      | some (w, known) => if known then some (w, false) else none
  | .output e =>
    if e.IsComputed then none
    else
      match MarshalPropertyValue e opts with
      | none => none
      | some (w, known) => if known then some (w, false) else none
termination_by 2 * psize v
decreasing_by all_goals simp_wf <;> simp [psize, psizeL, msizeE] <;> omega

/-- The element loop of the `IsArray` case of `MarshalPropertyValue`:
`outcome` starts `true` and is `AND`-ed with the known flag of every element. -/
def marshalArrayElems (elems : List PropertyValue) (opts : MarshalOptions) :
    Option (List WireValue × Bool) :=
  match elems with
  | [] => some ([], true)
  | e :: rest =>
    match MarshalPropertyValue e opts with
    | none => none
    | some (w, known) =>
      match marshalArrayElems rest opts with
      | none => none
      | some (ws, outcome) => some (w :: ws, outcome && known)
termination_by 2 * psizeL elems
decreasing_by all_goals simp_wf <;> simp [psize, psizeL, msizeE] <;> omega

/-- `MarshalPropertiesWithUnknowns` (`rpc.go` lines 27–56): iterate
`props.StableKeys()` (the entries in sorted key order) and delegate to
`marshalSortedEntries` for the loop body. -/
def MarshalPropertiesWithUnknowns (props : PropertyMap) (opts : MarshalOptions) :
    Option (List (String × WireValue) × List String) :=
  marshalSortedEntries (sortEntries props) opts
termination_by 2 * msizeE props + 1
decreasing_by simp_wf; rw [msizeE_sortEntries]; omega

/-- The key loop of `MarshalPropertiesWithUnknowns`: skip `Output` values,
skip `Null` values when `SkipNulls`, otherwise marshal and record the key in
the unknown list when the known flag is `false`. -/
def marshalSortedEntries (entries : List (String × PropertyValue)) (opts : MarshalOptions) :
    Option (List (String × WireValue) × List String) :=
  match entries with
  | [] => some ([], [])
  | (k, v) :: rest =>
    if v.IsOutput then marshalSortedEntries rest opts
    else if opts.SkipNulls && v.IsNull then marshalSortedEntries rest opts
    else
      match MarshalPropertyValue v opts with
      | none => none
      | some (mv, known) =>
        match marshalSortedEntries rest opts with
        | none => none
        | some (fields, unk) =>
          some ((k, mv) :: fields, if known then unk else k :: unk)
termination_by 2 * msizeE entries
decreasing_by all_goals simp_wf <;> simp [psize, psizeL, msizeE] <;> omega

/-- `MarshalAsset` (`rpc.go` lines 225–230): serialize, wrap the serialized
mapping as an object property, and marshal that. -/
def MarshalAsset (a : Asset) (opts : MarshalOptions) : Option (WireValue × Bool) :=
  MarshalPropertyValue (.object a.Serialize) opts
termination_by 15
decreasing_by simp_wf; cases a <;> simp [psize, msizeE, Asset.Serialize]

/-- `MarshalArchive` (`rpc.go` lines 233–238). -/
def MarshalArchive (a : Archive) (opts : MarshalOptions) : Option (WireValue × Bool) :=
  MarshalPropertyValue (.object a.Serialize) opts
termination_by 15
decreasing_by simp_wf; cases a <;> simp [psize, msizeE, Archive.Serialize]
end

/-- `MarshalProperties` (`rpc.go` lines 60–64): the strict marshal — wraps
`MarshalPropertiesWithUnknowns` and `contract.Assertf`s that the returned
unknown map is `nil`. -/
def MarshalProperties (props : PropertyMap) (opts : MarshalOptions) :
    Option (List (String × WireValue)) :=
  match MarshalPropertiesWithUnknowns props opts with
  | none => none
  | some (pstr, unks) => if unks = [] then some pstr else none

/-! ## Unmarshaler (`rpc.go` lines 124–195) -/

mutual
def wsize : WireValue → Nat
  | .null | .bool _ | .number _ | .string _ => 1
  | .list vs => 1 + wsizeL vs
  | .struct fields => 1 + wsizeE fields

def wsizeL : List WireValue → Nat
  | [] => 0
  | v :: rest => 1 + wsize v + wsizeL rest

def wsizeE : List (String × WireValue) → Nat
  | [] => 0
  | (_, v) :: rest => 1 + wsize v + wsizeE rest
end

theorem wsizeE_perm {l₁ l₂ : List (String × WireValue)} (h : l₁.Perm l₂) :
    wsizeE l₁ = wsizeE l₂ := by
  induction h with
  | nil => rfl
  | cons x _ ih => cases x; simp [wsizeE, ih]
  | swap x y l => cases x; cases y; simp [wsizeE]; omega
  | trans _ _ ih₁ ih₂ => omega

theorem wsizeE_sortEntries (m : List (String × WireValue)) :
    wsizeE (sortEntries m) = wsizeE m :=
  wsizeE_perm (List.perm_insertionSort _ m)

mutual
/-- `UnmarshalPropertyValue` (`rpc.go` lines 153–195).  `none` is a
`contract.Assert` failure; the `default` branch (`contract.Failf`) for an
unrecognized wire kind is unreachable: the wire kind set is closed. -/
def UnmarshalPropertyValue (v : WireValue) (opts : MarshalOptions) :
    Option PropertyValue :=
  match v with
  | .null => some .null
  | .bool b => some (.bool b)
  | .number n => some (.number n)
  | .string s => some (.string s)
  | .list vs =>
    match unmarshalListElems vs opts with
    | none => none
    | some elems => some (.array elems)
  | .struct fields =>
    match UnmarshalProperties fields opts with
    | none => none
    | some obj =>
      match DeserializeAsset obj with
      | some asset => some (.asset asset)
      | none =>
        match DeserializeArchive obj with
        | some archive => some (.archive archive)
        | none => some (.object obj)
termination_by 2 * wsize v
decreasing_by all_goals simp_wf <;> simp [wsize, wsizeL, wsizeE] <;> omega

/-- The element loop of the `ListValue` case: an in-order, index-aligned map
(the Go code appends a placeholder and assigns each index in turn). -/
def unmarshalListElems (vs : List WireValue) (opts : MarshalOptions) :
    Option (List PropertyValue) :=
  match vs with
  | [] => some []
  | v :: rest =>
    match UnmarshalPropertyValue v opts with
    | none => none
    | some pv =>
      match unmarshalListElems rest opts with
      | none => none
      | some pvs => some (pv :: pvs)
termination_by 2 * wsizeL vs
decreasing_by all_goals simp_wf <;> simp [wsize, wsizeL, wsizeE] <;> omega

/-- `UnmarshalProperties` (`rpc.go` lines 124–150): sort the field names
(`sort.Strings`) and decode each field in order (a `nil` struct simply has no
entries). -/
def UnmarshalProperties (fields : List (String × WireValue)) (opts : MarshalOptions) :
    Option PropertyMap :=
  unmarshalSortedFields (sortEntries fields) opts
termination_by 2 * wsizeE fields + 1
decreasing_by simp_wf; rw [wsizeE_sortEntries]; omega

/-- The field loop of `UnmarshalProperties`: decode, `contract.Assert` the
decoded value is not `Computed`, skip `Null` results when `SkipNulls`,
otherwise insert. -/
def unmarshalSortedFields (entries : List (String × WireValue)) (opts : MarshalOptions) :
    Option PropertyMap :=
  match entries with
  | [] => some []
  | (k, wv) :: rest =>
    match UnmarshalPropertyValue wv opts with
    | none => none
    | some v =>
      if v.IsComputed then none
      else
        match unmarshalSortedFields rest opts with
        | none => none
        | some result =>
          if opts.SkipNulls && v.IsNull then some result
          else some ((k, v) :: result)
termination_by 2 * wsizeE entries
decreasing_by all_goals simp_wf <;> simp [wsize, wsizeL, wsizeE] <;> omega
end

/-! ## Configuration-document parser (`compiler.parser.Parse`, `src/unnamed/part_000`) -/

/-- Modelled from the spec: `diag.Document` is not under `src/` — "raw source
bytes plus a format extension" (§1); `Ext` embeds the `doc.Ext()` accessor. -/
structure Document where
  File : String
  Body : String
  Ext : String

/-- Modelled from the spec: a structured diagnostic — "source document,
position, message" — emitted through the `diag.Sink` (§7); the sink is
embedded as the list of diagnostics issued so far. -/
structure Diagnostic where
  document : Document
  message : String

/-- Modelled from the spec: `errors.IllegalMufileSyntax.WithDocument(doc)`
applied to the deserialization error — the structured syntax diagnostic. -/
def IllegalMufileSyntax (doc : Document) (err : String) : Diagnostic := ⟨doc, err⟩

/-- `parser.Parse` (`src/unnamed/part_000` lines 34–58).  `marshalers` embeds
the `encoding.Marshalers` registry (each entry deserializes raw bytes into a
stack); the diagnostics sink is threaded as a list.  The outer `none` is the
`glog.Fatalf` process abort when no marshaler is registered for the
extension; otherwise the result is the updated sink paired with the returned
stack pointer (`none` standing for the `nil` return). -/
def ParserParse {Stack : Type} (marshalers : String → Option (String → Except String Stack))
    (sink : List Diagnostic) (doc : Document) :
    Option (List Diagnostic × Option Stack) :=
  match marshalers doc.Ext with
  | none => none
  | some m =>
    match m doc.Body with
    | .error err => some (sink ++ [IllegalMufileSyntax doc err], none)
    | .ok stack => some (sink, some stack)

/-! ## Ordering facts about the key sort -/

theorem charsLt_trans : ∀ {a b c : List Char},
    charsLt a b = true → charsLt b c = true → charsLt a c = true := by
  intro a
  induction a with
  | nil =>
    intro b c hab hbc
    cases b with
    | nil => simp [charsLt] at hab
    | cons y ys =>
      cases c with
      | nil => simp [charsLt] at hbc
      | cons z zs => simp [charsLt]
  | cons x xs ih =>
    intro b c hab hbc
    cases b with
    | nil => simp [charsLt] at hab
    | cons y ys =>
      cases c with
      | nil => simp [charsLt] at hbc
      | cons z zs =>
        simp only [charsLt] at hab hbc ⊢
        split at hab
        · rename_i h1
          split at hbc
          · rename_i h2
            rw [if_pos (Nat.lt_trans h1 h2)]
          · split at hbc
            · simp at hbc
            · rename_i h2 h3
              rw [if_pos (by omega)]
        · split at hab
          · simp at hab
          · rename_i h1 h2
            split at hbc
            · rename_i h3
              rw [if_pos (by omega)]
            · split at hbc
              · simp at hbc
              · rename_i h3 h4
                rw [if_neg (by omega), if_neg (by omega)]
                exact ih hab hbc

theorem strLt_trans {a b c : String} (hab : strLt a b = true) (hbc : strLt b c = true) :
    strLt a c = true :=
  charsLt_trans hab hbc

theorem strLt_le {a b : String} (h : strLt a b = true) : strLe a b = true := by
  simp [strLe, h]

/-- The wire-visible strict key order of a canonical (key-sorted) map. -/
def keysStrictSorted : List String → Bool
  | [] => true
  | [_] => true
  | k₁ :: k₂ :: rest => strLt k₁ k₂ && keysStrictSorted (k₂ :: rest)

theorem keysStrictSorted_pairwise : ∀ {l : List String},
    keysStrictSorted l = true → l.Pairwise (fun a b => strLt a b = true) := by
  intro l
  induction l with
  | nil => intro _; exact List.Pairwise.nil
  | cons k rest ih =>
    intro h
    cases rest with
    | nil => simp
    | cons k₂ rest₂ =>
      simp only [keysStrictSorted, Bool.and_eq_true] at h
      have htail := ih h.2
      refine List.Pairwise.cons ?_ htail
      intro x hx
      rcases List.mem_cons.mp hx with rfl | hx
      · exact h.1
      · exact strLt_trans h.1 (List.rel_of_pairwise_cons htail hx)

theorem sortEntries_eq_self {α : Type} {l : List (String × α)}
    (h : keysStrictSorted (l.map Prod.fst) = true) : sortEntries l = l := by
  refine List.Sorted.insertionSort_eq ?_
  have hp := keysStrictSorted_pairwise h
  have := (List.pairwise_map).mp hp
  exact this.imp fun hab => strLt_le hab

/-! ## Shape predicates over the typed model -/

mutual
/-- Built only from the Null/Bool/Number/String/Array/Object variants. -/
def plainValue : PropertyValue → Bool
  | .null | .bool _ | .number _ | .string _ => true
  | .array es => plainList es
  | .object m => plainEntries m
  | .asset _ | .archive _ | .computed _ | .output _ => false

def plainList : List PropertyValue → Bool
  | [] => true
  | e :: rest => plainValue e && plainList rest

def plainEntries : List (String × PropertyValue) → Bool
  | [] => true
  | (_, v) :: rest => plainValue v && plainEntries rest
end

mutual
/-- Every nested object map is in canonical form: keys strictly sorted (the
unique association-list representation of a Go map). -/
def canonicalValue : PropertyValue → Bool
  | .null | .bool _ | .number _ | .string _ | .asset _ | .archive _ => true
  | .array es => canonicalList es
  | .object m => keysStrictSorted (m.map Prod.fst) && canonicalEntries m
  | .computed e => canonicalValue e
  | .output e => canonicalValue e

def canonicalList : List PropertyValue → Bool
  | [] => true
  | e :: rest => canonicalValue e && canonicalList rest

def canonicalEntries : List (String × PropertyValue) → Bool
  | [] => true
  | (_, v) :: rest => canonicalValue v && canonicalEntries rest
end

mutual
/-- No nested object map is recognized by the Asset or the Archive
recognizer (so the unmarshal sniff leaves it a plain object). -/
def sniffFree : PropertyValue → Bool
  | .null | .bool _ | .number _ | .string _ | .asset _ | .archive _ => true
  | .array es => sniffFreeList es
  | .object m => (DeserializeAsset m).isNone && (DeserializeArchive m).isNone && sniffFreeEntries m
  | .computed e => sniffFree e
  | .output e => sniffFree e

def sniffFreeList : List PropertyValue → Bool
  | [] => true
  | e :: rest => sniffFree e && sniffFreeList rest

def sniffFreeEntries : List (String × PropertyValue) → Bool
  | [] => true
  | (_, v) :: rest => sniffFree v && sniffFreeEntries rest
end

mutual
/-- No `Computed` and no `Output` at any nesting depth (so the top is one of
Null, Bool, Number, String, Array, Asset, Archive, Object, recursively). -/
def deepPlain : PropertyValue → Bool
  | .null | .bool _ | .number _ | .string _ | .asset _ | .archive _ => true
  | .array es => deepPlainL es
  | .object m => deepPlainE m
  | .computed _ | .output _ => false

def deepPlainL : List PropertyValue → Bool
  | [] => true
  | e :: rest => deepPlain e && deepPlainL rest

def deepPlainE : List (String × PropertyValue) → Bool
  | [] => true
  | (_, v) :: rest => deepPlain v && deepPlainE rest
end

/-! ## Basic facts about the marshaler -/

theorem marshal_computed_not_known (e : PropertyValue) (opts : MarshalOptions) (w : WireValue) :
    MarshalPropertyValue (.computed e) opts ≠ some (w, true) := by
  intro h
  simp only [MarshalPropertyValue] at h
  split at h
  · exact Option.noConfusion h
  · split at h
    · exact Option.noConfusion h
    · split at h
      · simp at h
      · exact Option.noConfusion h

theorem marshal_output_not_known (e : PropertyValue) (opts : MarshalOptions) (w : WireValue) :
    MarshalPropertyValue (.output e) opts ≠ some (w, true) := by
  intro h
  simp only [MarshalPropertyValue] at h
  split at h
  · exact Option.noConfusion h
  · split at h
    · exact Option.noConfusion h
    · split at h
      · simp at h
      · exact Option.noConfusion h

theorem marshal_known_not_computed {v : PropertyValue} {opts : MarshalOptions} {w : WireValue}
    (h : MarshalPropertyValue v opts = some (w, true)) : v.IsComputed = false := by
  cases v <;> first
    | rfl
    | exact absurd h (marshal_computed_not_known _ _ _)

theorem marshal_computed_inner_computed (e : PropertyValue) (opts : MarshalOptions)
    (h : e.IsComputed = true) : MarshalPropertyValue (.computed e) opts = none := by
  simp [MarshalPropertyValue, h]

theorem marshal_output_inner_computed (e : PropertyValue) (opts : MarshalOptions)
    (h : e.IsComputed = true) : MarshalPropertyValue (.output e) opts = none := by
  simp [MarshalPropertyValue, h]

theorem marshal_computed_known {e : PropertyValue} {opts : MarshalOptions} {w : WireValue}
    (h : MarshalPropertyValue e opts = some (w, true)) :
    MarshalPropertyValue (.computed e) opts = some (w, false) := by
  have hc : e.IsComputed = false := marshal_known_not_computed h
  conv_lhs => rw [MarshalPropertyValue]
  rw [hc, h]
  simp

theorem marshal_output_known {e : PropertyValue} {opts : MarshalOptions} {w : WireValue}
    (h : MarshalPropertyValue e opts = some (w, true)) :
    MarshalPropertyValue (.output e) opts = some (w, false) := by
  have hc : e.IsComputed = false := marshal_known_not_computed h
  conv_lhs => rw [MarshalPropertyValue]
  rw [hc, h]
  simp

theorem marshal_computed_inner_unknown {e : PropertyValue} {opts : MarshalOptions} {w : WireValue}
    (hc : e.IsComputed = false) (h : MarshalPropertyValue e opts = some (w, false)) :
    MarshalPropertyValue (.computed e) opts = none := by
  conv_lhs => rw [MarshalPropertyValue]
  rw [hc, h]
  simp

theorem marshal_output_inner_unknown {e : PropertyValue} {opts : MarshalOptions} {w : WireValue}
    (hc : e.IsComputed = false) (h : MarshalPropertyValue e opts = some (w, false)) :
    MarshalPropertyValue (.output e) opts = none := by
  conv_lhs => rw [MarshalPropertyValue]
  rw [hc, h]
  simp

/-- C5 (amended): marshaling a Computed value whose inner element is itself
Computed aborts fatally; when the inner element marshals fully known, a
Computed (or Output) value marshals the inner element as the wire placeholder
shape with known flag `false`; but when the inner element is not Computed and
still marshals as not fully known, marshaling also aborts (the code asserts
the known flag of the inner marshal), contrary to the "otherwise" clause of the claim. -/
theorem C5_computed_placeholder :
    (∀ e opts, e.IsComputed = true → MarshalPropertyValue (.computed e) opts = none) ∧
    (∀ e opts w, MarshalPropertyValue e opts = some (w, true) →
      MarshalPropertyValue (.computed e) opts = some (w, false) ∧
      MarshalPropertyValue (.output e) opts = some (w, false)) ∧
    (∀ e opts w, e.IsComputed = false → MarshalPropertyValue e opts = some (w, false) →
      MarshalPropertyValue (.computed e) opts = none ∧
      MarshalPropertyValue (.output e) opts = none) :=
  ⟨fun e opts h => marshal_computed_inner_computed e opts h,
   fun _ _ _ h => ⟨marshal_computed_known h, marshal_output_known h⟩,
   fun _ _ _ hc h => ⟨marshal_computed_inner_unknown hc h, marshal_output_inner_unknown hc h⟩⟩

/-- C5 counterexample: the inner element `Output(Null)` is not itself
Computed, yet marshaling `Computed(Output(Null))` aborts fatally instead of
returning the placeholder with known flag `false` as the "otherwise"
clause of the claim states. -/
theorem C5_counterexample :
    PropertyValue.IsComputed (.output .null) = false ∧
    MarshalPropertyValue (.computed (.output .null)) defaultOpts = none := by
  constructor
  · rfl
  · simp [MarshalPropertyValue, PropertyValue.IsComputed, MarshalNull]

/-- C5 witness: the amended theorem applied at inner element `Null`. -/
theorem C5_witness :
    MarshalPropertyValue (.computed .null) defaultOpts = some (MarshalNull defaultOpts, false) ∧
    MarshalPropertyValue (.output .null) defaultOpts = some (MarshalNull defaultOpts, false) :=
  C5_computed_placeholder.2.1 .null defaultOpts (MarshalNull defaultOpts)
    (by simp [MarshalPropertyValue])

/-! ## Strict marshal aborts on Computed values (C2) -/

theorem marshalSortedEntries_computed_unk :
    ∀ {entries : List (String × PropertyValue)} {k : String} {e : PropertyValue}
      (opts : MarshalOptions), (k, PropertyValue.computed e) ∈ entries →
      ∀ fs unk, marshalSortedEntries entries opts = some (fs, unk) → unk ≠ [] := by
  intro entries
  induction entries with
  | nil => intro k e opts hmem; simp at hmem
  | cons hd tl ih =>
    intro k e opts hmem fs unk heq
    obtain ⟨k', v'⟩ := hd
    rcases List.mem_cons.mp hmem with hhd | htl
    · simp only [Prod.mk.injEq] at hhd
      obtain ⟨rfl, rfl⟩ := hhd
      simp only [marshalSortedEntries, PropertyValue.IsOutput, PropertyValue.IsNull,
        Bool.and_false, Bool.false_eq_true, if_false] at heq
      cases hm : MarshalPropertyValue (.computed e) opts with
      | none => rw [hm] at heq; exact Option.noConfusion heq
      | some p =>
        obtain ⟨mv, known⟩ := p
        cases known with
        | true => exact absurd hm (marshal_computed_not_known e opts mv)
        | false =>
          rw [hm] at heq
          cases hr : marshalSortedEntries tl opts with
          | none => rw [hr] at heq; exact Option.noConfusion heq
          | some pr =>
            obtain ⟨fields, unk'⟩ := pr
            rw [hr] at heq
            simp at heq
            rcases heq with ⟨-, hunk⟩
            intro hcontra
            subst hcontra
            simp at hunk
    · simp only [marshalSortedEntries] at heq
      split at heq
      · exact ih opts htl fs unk heq
      · split at heq
        · exact ih opts htl fs unk heq
        · cases hm : MarshalPropertyValue v' opts with
          | none => rw [hm] at heq; exact Option.noConfusion heq
          | some p =>
            obtain ⟨mv, known⟩ := p
            rw [hm] at heq
            cases hr : marshalSortedEntries tl opts with
            | none => rw [hr] at heq; exact Option.noConfusion heq
            | some pr =>
              obtain ⟨fields, unk'⟩ := pr
              rw [hr] at heq
              have hne : unk' ≠ [] := ih opts htl fields unk' hr
              cases known with
              | true =>
                simp at heq
                rcases heq with ⟨-, hunk⟩
                intro hc
                subst hc
                exact hne hunk
              | false =>
                simp at heq
                rcases heq with ⟨-, hunk⟩
                intro hc
                subst hc
                simp at hunk

/-- C2 (amended): invoking the strict marshal (`MarshalProperties`) on any
Property Map in which some key maps to a Computed value aborts with a fatal
internal-invariant error rather than silently omitting the unknown.  (The
extension of the claim to Output values fails: a top-level Output value is
silently skipped before marshaling — see the counterexample.) -/
theorem C2_strict_marshal_computed_aborts (props : PropertyMap) (opts : MarshalOptions)
    (k : String) (e : PropertyValue) (h : (k, PropertyValue.computed e) ∈ props) :
    MarshalProperties props opts = none := by
  have hmem : (k, PropertyValue.computed e) ∈ sortEntries props :=
    ((List.perm_insertionSort _ props).mem_iff).mpr h
  cases hm : MarshalPropertiesWithUnknowns props opts with
  | none => simp [MarshalProperties, hm]
  | some pr =>
    obtain ⟨pstr, unks⟩ := pr
    simp only [MarshalPropertiesWithUnknowns] at hm
    have hne : unks ≠ [] := marshalSortedEntries_computed_unk opts hmem pstr unks hm
    simp [MarshalProperties, MarshalPropertiesWithUnknowns, hm, hne]

/-- C2 witness: the amended theorem applied to `{"k": Computed(Null)}`. -/
theorem C2_witness : MarshalProperties [("k", PropertyValue.computed .null)] defaultOpts = none :=
  C2_strict_marshal_computed_aborts [("k", PropertyValue.computed .null)] defaultOpts ("k") .null
    (by simp)

/-- C2 counterexample: `{"k": Output(Null)}` contains an Output value, yet
the strict marshal does not abort — the key is skipped entirely and the
marshal succeeds with an empty wire struct (the Go loop `continue`s on
`IsOutput()` before any unknown is recorded). -/
theorem C2_counterexample :
    MarshalProperties [("k", PropertyValue.output .null)] defaultOpts = some [] := by
  simp [MarshalProperties, MarshalPropertiesWithUnknowns, marshalSortedEntries, sortEntries,
    List.insertionSort, PropertyValue.IsOutput]

/-! ## Unknown propagation (C3) -/

theorem marshalSortedEntries_all_known :
    ∀ {entries : List (String × PropertyValue)} (opts : MarshalOptions),
      (∀ k v, (k, v) ∈ entries → ∃ w, MarshalPropertyValue v opts = some (w, true)) →
      ∃ fs, marshalSortedEntries entries opts = some (fs, []) := by
  intro entries
  induction entries with
  | nil => intro opts _; exact ⟨[], by simp [marshalSortedEntries]⟩
  | cons hd tl ih =>
    intro opts hall
    obtain ⟨k, v⟩ := hd
    have htl : ∀ k' v', (k', v') ∈ tl → ∃ w, MarshalPropertyValue v' opts = some (w, true) :=
      fun k' v' hm => hall k' v' (List.mem_cons_of_mem _ hm)
    obtain ⟨fs, hfs⟩ := ih opts htl
    by_cases hout : v.IsOutput = true
    · exact ⟨fs, by simp only [marshalSortedEntries, hout, if_true]; exact hfs⟩
    · by_cases hnull : (opts.SkipNulls && v.IsNull) = true
      · refine ⟨fs, ?_⟩
        simp only [marshalSortedEntries, hout, hnull]
        simp only [Bool.false_eq_true, if_false, if_true]
        exact hfs
      · obtain ⟨w, hw⟩ := hall k v (List.mem_cons_self _ _)
        refine ⟨(k, w) :: fs, ?_⟩
        simp only [marshalSortedEntries, hout, hnull]
        simp only [Bool.false_eq_true, if_false]
        rw [hw, hfs]
        simp

/-- C3 (confirmed): marshaling `{k: Computed(shape)}` (where the inner shape
marshals fully known) yields a wire struct whose sole field `k` holds the
marshaled placeholder shape, with unknown-key set exactly `{k}`; and
marshaling any map all of whose values marshal fully known yields an empty
(`nil`) unknown set. -/
theorem C3_unknown_propagation :
    (∀ (k : String) (shape : PropertyValue) (opts : MarshalOptions) (w : WireValue),
      MarshalPropertyValue shape opts = some (w, true) →
      MarshalPropertiesWithUnknowns [(k, PropertyValue.computed shape)] opts =
        some ([(k, w)], [k])) ∧
    (∀ (props : PropertyMap) (opts : MarshalOptions),
      (∀ k v, (k, v) ∈ props → ∃ w, MarshalPropertyValue v opts = some (w, true)) →
      ∃ s, MarshalPropertiesWithUnknowns props opts = some (s, [])) := by
  constructor
  · intro k shape opts w h
    have hm := marshal_computed_known h
    simp only [MarshalPropertiesWithUnknowns, sortEntries, List.insertionSort,
      List.orderedInsert]
    simp only [marshalSortedEntries, PropertyValue.IsOutput, PropertyValue.IsNull,
      Bool.and_false, Bool.false_eq_true, if_false]
    rw [hm]
    simp [marshalSortedEntries]
  · intro props opts hall
    have hsorted : ∀ k v, (k, v) ∈ sortEntries props →
        ∃ w, MarshalPropertyValue v opts = some (w, true) :=
      fun k v hm => hall k v (((List.perm_insertionSort _ props).mem_iff).mp hm)
    obtain ⟨fs, hfs⟩ := marshalSortedEntries_all_known opts hsorted
    exact ⟨fs, by simp only [MarshalPropertiesWithUnknowns]; exact hfs⟩

/-- C3 witness: the theorem applied to `{"k": Computed(String ""))}` and to
`{"k": "known-value"}`. -/
theorem C3_witness :
    MarshalPropertiesWithUnknowns [("k", PropertyValue.computed (.string ("")))] defaultOpts =
      some ([("k", WireValue.string (""))], ["k"]) ∧
    ∃ s, MarshalPropertiesWithUnknowns [("k", PropertyValue.string ("known-value"))] defaultOpts =
      some (s, []) := by
  constructor
  · exact C3_unknown_propagation.1 ("k") (.string ("")) defaultOpts (WireValue.string (""))
      (by simp [MarshalPropertyValue, MarshalString])
  · refine C3_unknown_propagation.2 [("k", PropertyValue.string ("known-value"))] defaultOpts ?_
    intro k v hm
    simp at hm
    obtain ⟨rfl, rfl⟩ := hm
    exact ⟨WireValue.string ("known-value"), by simp [MarshalPropertyValue, MarshalString]⟩

/-! ## Output suppression (C4) -/

theorem marshalSortedEntries_keys_subset :
    ∀ {entries : List (String × PropertyValue)} {opts : MarshalOptions}
      {fs : List (String × WireValue)} {unk : List String},
      marshalSortedEntries entries opts = some (fs, unk) →
      ∀ k, k ∈ fs.map Prod.fst → k ∈ entries.map Prod.fst := by
  intro entries
  induction entries with
  | nil => intro opts fs unk heq k hk; simp [marshalSortedEntries] at heq; simp [heq.1] at hk
  | cons hd tl ih =>
    intro opts fs unk heq k hk
    obtain ⟨k', v'⟩ := hd
    simp only [marshalSortedEntries] at heq
    split at heq
    · exact List.mem_cons_of_mem _ (ih heq k hk)
    · split at heq
      · exact List.mem_cons_of_mem _ (ih heq k hk)
      · cases hm : MarshalPropertyValue v' opts with
        | none => rw [hm] at heq; exact Option.noConfusion heq
        | some p =>
          obtain ⟨mv, known⟩ := p
          rw [hm] at heq
          cases hr : marshalSortedEntries tl opts with
          | none => rw [hr] at heq; exact Option.noConfusion heq
          | some pr =>
            obtain ⟨fields, unk'⟩ := pr
            rw [hr] at heq
            simp at heq
            rcases heq with ⟨hfs, -⟩
            rw [← hfs] at hk
            simp at hk
            rcases hk with rfl | hk
            · simp
            · simp only [List.map_cons, List.mem_cons]
              exact Or.inr (ih hr k (by simpa using hk))

theorem marshalSortedEntries_output_absent :
    ∀ {entries : List (String × PropertyValue)} {k : String} {e : PropertyValue}
      {opts : MarshalOptions} {fs : List (String × WireValue)} {unk : List String},
      (entries.map Prod.fst).Nodup → (k, PropertyValue.output e) ∈ entries →
      marshalSortedEntries entries opts = some (fs, unk) → k ∉ fs.map Prod.fst := by
  intro entries
  induction entries with
  | nil => intro k e opts fs unk _ hmem _; simp at hmem
  | cons hd tl ih =>
    intro k e opts fs unk hnd hmem heq
    obtain ⟨k', v'⟩ := hd
    simp only [List.map_cons, List.nodup_cons] at hnd
    obtain ⟨hk', hndtl⟩ := hnd
    rcases List.mem_cons.mp hmem with hhd | htl
    · simp only [Prod.mk.injEq] at hhd
      obtain ⟨rfl, rfl⟩ := hhd
      simp only [marshalSortedEntries, PropertyValue.IsOutput, if_true] at heq
      intro hk
      exact hk' (marshalSortedEntries_keys_subset heq k hk)
    · simp only [marshalSortedEntries] at heq
      split at heq
      · exact ih hndtl htl heq
      · split at heq
        · exact ih hndtl htl heq
        · cases hm : MarshalPropertyValue v' opts with
          | none => rw [hm] at heq; exact Option.noConfusion heq
          | some p =>
            obtain ⟨mv, known⟩ := p
            rw [hm] at heq
            cases hr : marshalSortedEntries tl opts with
            | none => rw [hr] at heq; exact Option.noConfusion heq
            | some pr =>
              obtain ⟨fields, unk'⟩ := pr
              rw [hr] at heq
              simp at heq
              rcases heq with ⟨hfs, -⟩
              intro hk
              rw [← hfs] at hk
              simp at hk
              rcases hk with rfl | hk
              · exact hk' (by simpa using List.mem_map_of_mem Prod.fst htl)
              · exact ih hndtl htl hr (by simpa using hk)

/-- C4 (confirmed): for every Property Map (with the unique keys of a Go
map) in which key `k` maps to an Output value, the marshaled wire struct
contains no field named `k` at all, regardless of Marshal Options. -/
theorem C4_output_suppression (props : PropertyMap) (opts : MarshalOptions)
    (k : String) (e : PropertyValue)
    (hnd : (props.map Prod.fst).Nodup) (hmem : (k, PropertyValue.output e) ∈ props)
    (s : List (String × WireValue)) (u : List String)
    (hm : MarshalPropertiesWithUnknowns props opts = some (s, u)) :
    k ∉ s.map Prod.fst := by
  have hperm := List.perm_insertionSort (fun a b => strLe a.1 b.1 = true) props
  have hmem' : (k, PropertyValue.output e) ∈ sortEntries props := hperm.mem_iff.mpr hmem
  have hnd' : ((sortEntries props).map Prod.fst).Nodup := ((hperm.map Prod.fst).nodup_iff).mpr hnd
  simp only [MarshalPropertiesWithUnknowns] at hm
  exact marshalSortedEntries_output_absent hnd' hmem' hm

/-- C4 witness: the theorem applied to `{"k": Output(Null), "m": true}`. -/
theorem C4_witness : "k" ∉ List.map Prod.fst [("m", WireValue.bool true)] :=
  C4_output_suppression [("k", PropertyValue.output .null), ("m", PropertyValue.bool true)]
    defaultOpts ("k") .null (by simp) (by simp) [("m", WireValue.bool true)] []
    (by simp [MarshalPropertiesWithUnknowns, sortEntries, List.insertionSort, List.orderedInsert,
      strLe, strLt, charsLt, marshalSortedEntries, MarshalPropertyValue,
      PropertyValue.IsOutput, PropertyValue.IsNull, defaultOpts, UInt32.size])

/-- C7 (confirmed): with `SkipNulls = true`, marshaling
`{"a": Null, "b": "x"}` yields a wire struct containing only
`"b" ↦ "x"`, and unmarshaling the wire struct
`{"a": Null, "b": "x"}` likewise drops the Null-valued key; with
`SkipNulls = false`, both keys appear, `"a"` mapped to wire Null. -/
theorem C7_skip_nulls :
    MarshalPropertiesWithUnknowns [("a", PropertyValue.null), ("b", PropertyValue.string ("x"))]
      ⟨true, false, false⟩ = some ([("b", WireValue.string ("x"))], []) ∧
    MarshalPropertiesWithUnknowns [("a", PropertyValue.null), ("b", PropertyValue.string ("x"))]
      ⟨false, false, false⟩ =
      some ([("a", WireValue.null), ("b", WireValue.string ("x"))], []) ∧
    UnmarshalProperties [("a", WireValue.null), ("b", WireValue.string ("x"))]
      ⟨true, false, false⟩ = some [("b", PropertyValue.string ("x"))] ∧
    UnmarshalProperties [("a", WireValue.null), ("b", WireValue.string ("x"))]
      ⟨false, false, false⟩ =
      some [("a", PropertyValue.null), ("b", PropertyValue.string ("x"))] := by
  refine ⟨?_, ?_, ?_, ?_⟩ <;>
    simp [MarshalPropertiesWithUnknowns, marshalSortedEntries, MarshalPropertyValue,
      UnmarshalProperties, unmarshalSortedFields, UnmarshalPropertyValue,
      sortEntries, List.insertionSort, List.orderedInsert, strLe, strLt, charsLt,
      PropertyValue.IsOutput, PropertyValue.IsNull, PropertyValue.IsComputed,
      MarshalNull, MarshalString, UInt32.size, DeserializeAsset, DeserializeArchive,
      hasSig, lookupKey, SigKey, AssetSig, ArchiveSig]

/-! ## Asset/Archive sniffing on unmarshal (C6) -/

theorem hasSig_exclusive {obj : PropertyMap} (h : hasSig obj AssetSig = true) :
    hasSig obj ArchiveSig = false := by
  simp only [hasSig] at h ⊢
  cases hl : lookupKey obj SigKey with
  | none => simp [hl] at h
  | some v => cases v <;> simp_all [AssetSig, ArchiveSig]

/-- C6 (confirmed): when unmarshaling a wire struct, the decoder first runs
the Asset recognizer, then the Archive recognizer, over the decoded mapping;
the first match wins and is reconstructed as the typed Asset or Archive; a
mapping matching neither is wrapped as a generic Object; and the recognizers
are mutually exclusive (an Asset-discriminated mapping is never recognized
as an Archive and vice versa). -/
theorem C6_sniff_order :
    (∀ (fields : List (String × WireValue)) (opts : MarshalOptions) (m : PropertyMap)
      (a : Asset), UnmarshalProperties fields opts = some m → DeserializeAsset m = some a →
      UnmarshalPropertyValue (.struct fields) opts = some (.asset a)) ∧
    (∀ (fields : List (String × WireValue)) (opts : MarshalOptions) (m : PropertyMap)
      (ar : Archive), UnmarshalProperties fields opts = some m → DeserializeAsset m = none →
      DeserializeArchive m = some ar →
      UnmarshalPropertyValue (.struct fields) opts = some (.archive ar)) ∧
    (∀ (fields : List (String × WireValue)) (opts : MarshalOptions) (m : PropertyMap),
      UnmarshalProperties fields opts = some m → DeserializeAsset m = none →
      DeserializeArchive m = none →
      UnmarshalPropertyValue (.struct fields) opts = some (.object m)) ∧
    (∀ (m : PropertyMap) (a : Asset), DeserializeAsset m = some a →
      DeserializeArchive m = none) ∧
    (∀ (m : PropertyMap) (ar : Archive), DeserializeArchive m = some ar →
      DeserializeAsset m = none) := by
  refine ⟨?_, ?_, ?_, ?_, ?_⟩
  · intro fields opts m a hu hd
    conv_lhs => rw [UnmarshalPropertyValue]
    rw [hu]
    simp [hd]
  · intro fields opts m ar hu hda hdr
    conv_lhs => rw [UnmarshalPropertyValue]
    rw [hu]
    simp [hda, hdr]
  · intro fields opts m hu hda hdr
    conv_lhs => rw [UnmarshalPropertyValue]
    rw [hu]
    simp [hda, hdr]
  · intro m a hd
    have hs : hasSig m AssetSig = true := by
      by_contra hc
      simp only [Bool.not_eq_true] at hc
      simp [DeserializeAsset, hc] at hd
    simp [DeserializeArchive, hasSig_exclusive hs]
  · intro m ar hd
    have hs : hasSig m ArchiveSig = true := by
      by_contra hc
      simp only [Bool.not_eq_true] at hc
      simp [DeserializeArchive, hc] at hd
    have ha : hasSig m AssetSig = false := by
      simp only [hasSig] at hs ⊢
      cases hl : lookupKey m SigKey with
      | none => simp [hl] at hs
      | some v => cases v <;> simp_all [AssetSig, ArchiveSig]
    simp [DeserializeAsset, ha]

/-- C6 witness: an Asset-discriminated wire struct decodes to the typed
Asset, and the same mapping is not recognized as an Archive. -/
theorem C6_witness :
    UnmarshalPropertyValue
      (.struct [("sig", WireValue.string ("asset")), ("text", WireValue.string ("hello"))])
      defaultOpts = some (.asset (.text ("hello"))) ∧
    DeserializeArchive [("sig", PropertyValue.string ("asset")), ("text", PropertyValue.string ("hello"))] = none := by
  constructor
  · refine C6_sniff_order.1
      [("sig", WireValue.string ("asset")), ("text", WireValue.string ("hello"))] defaultOpts
      [("sig", PropertyValue.string ("asset")), ("text", PropertyValue.string ("hello"))]
      (.text ("hello")) ?_ ?_
    · simp [UnmarshalProperties, unmarshalSortedFields, UnmarshalPropertyValue,
        sortEntries, List.insertionSort, List.orderedInsert, strLe, strLt, charsLt,
        PropertyValue.IsComputed, PropertyValue.IsNull, defaultOpts, UInt32.size]
    · simp [DeserializeAsset, hasSig, lookupKey, SigKey, AssetSig]
  · exact C6_sniff_order.2.2.2.1
      [("sig", PropertyValue.string ("asset")), ("text", PropertyValue.string ("hello"))]
      (.text ("hello")) (by simp [DeserializeAsset, hasSig, lookupKey, SigKey, AssetSig])

/-! ## Totality and deep plainness of the unmarshaler (C8, C10) -/

theorem deepPlain_not_computed {v : PropertyValue} (h : deepPlain v = true) :
    v.IsComputed = false := by
  cases v <;> simp_all [deepPlain, PropertyValue.IsComputed]

theorem unmarshal_total_deepPlain :
    ∀ n : Nat,
      (∀ w : WireValue, wsize w ≤ n → ∀ opts : MarshalOptions,
        ∃ v, UnmarshalPropertyValue w opts = some v ∧ deepPlain v = true) ∧
      (∀ vs : List WireValue, wsizeL vs ≤ n → ∀ opts : MarshalOptions,
        ∃ es, unmarshalListElems vs opts = some es ∧ deepPlainL es = true) ∧
      (∀ entries : List (String × WireValue), wsizeE entries ≤ n → ∀ opts : MarshalOptions,
        ∃ m, unmarshalSortedFields entries opts = some m ∧ deepPlainE m = true) := by
  intro n
  induction n using Nat.strong_induction_on with
  | _ n ih =>
    refine ⟨?_, ?_, ?_⟩
    · intro w hw opts
      cases w with
      | null => exact ⟨.null, by simp [UnmarshalPropertyValue], by simp [deepPlain]⟩
      | bool b => exact ⟨.bool b, by simp [UnmarshalPropertyValue], by simp [deepPlain]⟩
      | number m => exact ⟨.number m, by simp [UnmarshalPropertyValue], by simp [deepPlain]⟩
      | string s => exact ⟨.string s, by simp [UnmarshalPropertyValue], by simp [deepPlain]⟩
      | list vs =>
        have hlt : wsizeL vs < n := by simp [wsize] at hw; omega
        obtain ⟨es, hes, hdeep⟩ := (ih (wsizeL vs) hlt).2.1 vs le_rfl opts
        refine ⟨.array es, ?_, by simpa [deepPlain] using hdeep⟩
        conv_lhs => rw [UnmarshalPropertyValue]
        rw [hes]
      | struct fields =>
        have hlt : wsizeE fields < n := by simp [wsize] at hw; omega
        have hsz : wsizeE (sortEntries fields) ≤ wsizeE fields :=
          le_of_eq (wsizeE_sortEntries fields)
        obtain ⟨m, hm, hdeepm⟩ :=
          (ih (wsizeE fields) hlt).2.2 (sortEntries fields) hsz opts
        have hup : UnmarshalProperties fields opts = some m := by
          simp only [UnmarshalProperties]
          exact hm
        cases hda : DeserializeAsset m with
        | some a =>
          refine ⟨.asset a, ?_, by simp [deepPlain]⟩
          conv_lhs => rw [UnmarshalPropertyValue]
          rw [hup]
          simp [hda]
        | none =>
          cases hdr : DeserializeArchive m with
          | some ar =>
            refine ⟨.archive ar, ?_, by simp [deepPlain]⟩
            conv_lhs => rw [UnmarshalPropertyValue]
            rw [hup]
            simp [hda, hdr]
          | none =>
            refine ⟨.object m, ?_, by simpa [deepPlain] using hdeepm⟩
            conv_lhs => rw [UnmarshalPropertyValue]
            rw [hup]
            simp [hda, hdr]
    · intro vs hvs opts
      cases vs with
      | nil => exact ⟨[], by simp [unmarshalListElems], by simp [deepPlainL]⟩
      | cons v rest =>
        have h1 : wsize v < n := by simp [wsizeL] at hvs; omega
        have h2 : wsizeL rest < n := by simp [wsizeL] at hvs; omega
        obtain ⟨pv, hpv, hdeep1⟩ := (ih (wsize v) h1).1 v le_rfl opts
        obtain ⟨pvs, hpvs, hdeep2⟩ := (ih (wsizeL rest) h2).2.1 rest le_rfl opts
        refine ⟨pv :: pvs, ?_, by simp [deepPlainL, hdeep1, hdeep2]⟩
        conv_lhs => rw [unmarshalListElems]
        rw [hpv, hpvs]
    · intro entries hes opts
      cases entries with
      | nil => exact ⟨[], by simp [unmarshalSortedFields], by simp [deepPlainE]⟩
      | cons hd rest =>
        obtain ⟨k, wv⟩ := hd
        have h1 : wsize wv < n := by simp [wsizeE] at hes; omega
        have h2 : wsizeE rest < n := by simp [wsizeE] at hes; omega
        obtain ⟨v, hv, hdeep1⟩ := (ih (wsize wv) h1).1 wv le_rfl opts
        obtain ⟨result, hresult, hdeep2⟩ := (ih (wsizeE rest) h2).2.2 rest le_rfl opts
        have hnc : v.IsComputed = false := deepPlain_not_computed hdeep1
        by_cases hskip : (opts.SkipNulls && v.IsNull) = true
        · refine ⟨result, ?_, hdeep2⟩
          conv_lhs => rw [unmarshalSortedFields]
          rw [hv]
          simp [hnc, hresult, hskip]
        · refine ⟨(k, v) :: result, ?_, by simp [deepPlainE, hdeep1, hdeep2]⟩
          conv_lhs => rw [unmarshalSortedFields]
          rw [hv]
          simp [hnc, hresult, hskip]

/-- C8 (confirmed): for every wire value of the closed wire-kind set,
`UnmarshalPropertyValue` succeeds and never produces a Computed value; hence
`UnmarshalProperties` always succeeds — its `contract.Assert` that each
decoded field is not Computed never fires. -/
theorem C8_unmarshal_never_computed :
    (∀ (w : WireValue) (opts : MarshalOptions),
      ∃ v, UnmarshalPropertyValue w opts = some v ∧ v.IsComputed = false) ∧
    (∀ (fields : List (String × WireValue)) (opts : MarshalOptions),
      ∃ m, UnmarshalProperties fields opts = some m) := by
  constructor
  · intro w opts
    obtain ⟨v, hv, hd⟩ := (unmarshal_total_deepPlain (wsize w)).1 w le_rfl opts
    exact ⟨v, hv, deepPlain_not_computed hd⟩
  · intro fields opts
    obtain ⟨m, hm, -⟩ := (unmarshal_total_deepPlain (wsizeE (sortEntries fields))).2.2
      (sortEntries fields) le_rfl opts
    exact ⟨m, by simp only [UnmarshalProperties]; exact hm⟩

/-- C10 (confirmed): every decoded value is free of Computed and Output at
any nesting depth (its top is one of the eight data kinds, recursively), and
so a Property Map decoded from a plugin reply contains no Computed and no
Output values anywhere. -/
theorem C10_unmarshal_deep_plain :
    (∀ (w : WireValue) (opts : MarshalOptions) (v : PropertyValue),
      UnmarshalPropertyValue w opts = some v → deepPlain v = true) ∧
    (∀ (fields : List (String × WireValue)) (opts : MarshalOptions) (m : PropertyMap),
      UnmarshalProperties fields opts = some m → deepPlainE m = true) := by
  constructor
  · intro w opts v h
    obtain ⟨v', hv', hd⟩ := (unmarshal_total_deepPlain (wsize w)).1 w le_rfl opts
    rw [hv'] at h
    injection h with h
    exact h ▸ hd
  · intro fields opts m h
    obtain ⟨m', hm', hd⟩ := (unmarshal_total_deepPlain (wsizeE (sortEntries fields))).2.2
      (sortEntries fields) le_rfl opts
    simp only [UnmarshalProperties] at h
    rw [hm'] at h
    injection h with h
    exact h ▸ hd

/-- C10 witness: the theorem applied to the wire struct `{"k": true}`, which
decodes to the object `{"k": true}` — deep-plain as claimed. -/
theorem C10_witness : deepPlain (.object [("k", PropertyValue.bool true)]) = true :=
  C10_unmarshal_deep_plain.1 (.struct [("k", WireValue.bool true)]) defaultOpts
    (.object [("k", PropertyValue.bool true)])
    (by simp [UnmarshalPropertyValue, UnmarshalProperties, unmarshalSortedFields,
      sortEntries, List.insertionSort, List.orderedInsert, PropertyValue.IsComputed,
      PropertyValue.IsNull, defaultOpts, DeserializeAsset, DeserializeArchive, hasSig,
      lookupKey, SigKey, AssetSig, ArchiveSig])

/-! ## Parser diagnostics (C9) -/

/-- C9 (confirmed): when a marshaler is registered for the format
extension of the document but the body fails to deserialize, `Parse` reports the syntax
problem through the diagnostics sink (an `IllegalMufileSyntax` diagnostic
carrying the document) and returns `nil`, without aborting the process. -/
theorem C9_parse_syntax_error {Stack : Type}
    (marshalers : String → Option (String → Except String Stack))
    (sink : List Diagnostic) (doc : Document) (m : String → Except String Stack) (err : String)
    (hm : marshalers doc.Ext = some m) (he : m doc.Body = .error err) :
    ParserParse marshalers sink doc = some (sink ++ [IllegalMufileSyntax doc err], none) := by
  simp [ParserParse, hm, he]

/-- C9 witness: the theorem applied to a registry whose only marshaler
rejects every body. -/
theorem C9_witness :
    ParserParse (fun _ => some fun _ => (.error ("unexpected end of document") : Except String Unit))
      [] ⟨"Mu.yaml", "stack:", ".yaml"⟩ =
      some ([IllegalMufileSyntax ⟨"Mu.yaml", "stack:", ".yaml"⟩ ("unexpected end of document")],
        none) :=
  C9_parse_syntax_error (fun _ => some fun _ => .error ("unexpected end of document")) []
    ⟨"Mu.yaml", "stack:", ".yaml"⟩ (fun _ => .error ("unexpected end of document"))
    "unexpected end of document" rfl rfl

/-! ## Round trip of plain values (C1) -/

theorem plain_not_output {v : PropertyValue} (h : plainValue v = true) :
    v.IsOutput = false := by
  cases v <;> simp_all [plainValue, PropertyValue.IsOutput]

theorem plain_not_computed {v : PropertyValue} (h : plainValue v = true) :
    v.IsComputed = false := by
  cases v <;> simp_all [plainValue, PropertyValue.IsComputed]

theorem roundtrip_aux :
    ∀ n : Nat,
      (∀ v : PropertyValue, psize v ≤ n →
        plainValue v = true → canonicalValue v = true → sniffFree v = true →
        ∃ w, MarshalPropertyValue v defaultOpts = some (w, true) ∧
          UnmarshalPropertyValue w defaultOpts = some v) ∧
      (∀ es : List PropertyValue, psizeL es ≤ n →
        plainList es = true → canonicalList es = true → sniffFreeList es = true →
        ∃ ws, marshalArrayElems es defaultOpts = some (ws, true) ∧
          unmarshalListElems ws defaultOpts = some es) ∧
      (∀ m : List (String × PropertyValue), msizeE m ≤ n →
        plainEntries m = true → canonicalEntries m = true → sniffFreeEntries m = true →
        ∃ fs, marshalSortedEntries m defaultOpts = some (fs, []) ∧
          fs.map Prod.fst = m.map Prod.fst ∧
          unmarshalSortedFields fs defaultOpts = some m) := by
  intro n
  induction n using Nat.strong_induction_on with
  | _ n ih =>
    refine ⟨?_, ?_, ?_⟩
    · intro v hv hp hc hs
      cases v with
      | null =>
        exact ⟨.null, by simp [MarshalPropertyValue, MarshalNull],
          by simp [UnmarshalPropertyValue]⟩
      | bool b =>
        exact ⟨.bool b, by simp [MarshalPropertyValue], by simp [UnmarshalPropertyValue]⟩
      | number num =>
        exact ⟨.number num, by simp [MarshalPropertyValue], by simp [UnmarshalPropertyValue]⟩
      | string s =>
        exact ⟨.string s, by simp [MarshalPropertyValue, MarshalString],
          by simp [UnmarshalPropertyValue]⟩
      | array es =>
        have hlt : psizeL es < n := by simp [psize] at hv; omega
        simp only [plainValue] at hp
        simp only [canonicalValue] at hc
        simp only [sniffFree] at hs
        obtain ⟨ws, hm, hu⟩ := (ih (psizeL es) hlt).2.1 es le_rfl hp hc hs
        refine ⟨.list ws, ?_, ?_⟩
        · conv_lhs => rw [MarshalPropertyValue]
          rw [hm]
        · conv_lhs => rw [UnmarshalPropertyValue]
          rw [hu]
      | object m =>
        have hlt : msizeE m < n := by simp [psize] at hv; omega
        simp only [plainValue] at hp
        simp only [canonicalValue, Bool.and_eq_true] at hc
        obtain ⟨hsorted, hcE⟩ := hc
        simp only [sniffFree, Bool.and_eq_true] at hs
        obtain ⟨⟨hda, hdr⟩, hsE⟩ := hs
        have hdaN : DeserializeAsset m = none := by
          simpa [Option.isNone_iff_eq_none] using hda
        have hdrN : DeserializeArchive m = none := by
          simpa [Option.isNone_iff_eq_none] using hdr
        obtain ⟨fs, hfs, hkeys, hun⟩ := (ih (msizeE m) hlt).2.2 m le_rfl hp hcE hsE
        have hsortm : sortEntries m = m := sortEntries_eq_self hsorted
        have hsortfs : sortEntries fs = fs := by
          refine sortEntries_eq_self ?_
          rw [hkeys]
          exact hsorted
        refine ⟨.struct fs, ?_, ?_⟩
        · conv_lhs => rw [MarshalPropertyValue]
          have hmp : MarshalPropertiesWithUnknowns m defaultOpts = some (fs, []) := by
            simp only [MarshalPropertiesWithUnknowns]
            rw [hsortm]
            exact hfs
          rw [hmp]
          simp [MarshalStruct]
        · conv_lhs => rw [UnmarshalPropertyValue]
          have hup : UnmarshalProperties fs defaultOpts = some m := by
            simp only [UnmarshalProperties]
            rw [hsortfs]
            exact hun
          rw [hup]
          simp [hdaN, hdrN]
      | asset a => simp [plainValue] at hp
      | archive a => simp [plainValue] at hp
      | computed e => simp [plainValue] at hp
      | output e => simp [plainValue] at hp
    · intro es hsz hp hc hs
      cases es with
      | nil =>
        exact ⟨[], by simp [marshalArrayElems], by simp [unmarshalListElems]⟩
      | cons e rest =>
        have h1 : psize e < n := by simp [psizeL] at hsz; omega
        have h2 : psizeL rest < n := by simp [psizeL] at hsz; omega
        simp only [plainList, Bool.and_eq_true] at hp
        simp only [canonicalList, Bool.and_eq_true] at hc
        simp only [sniffFreeList, Bool.and_eq_true] at hs
        obtain ⟨w, hw, hwu⟩ := (ih (psize e) h1).1 e le_rfl hp.1 hc.1 hs.1
        obtain ⟨ws, hws, hwsu⟩ := (ih (psizeL rest) h2).2.1 rest le_rfl hp.2 hc.2 hs.2
        refine ⟨w :: ws, ?_, ?_⟩
        · conv_lhs => rw [marshalArrayElems]
          rw [hw, hws]
          simp
        · conv_lhs => rw [unmarshalListElems]
          rw [hwu, hwsu]
    · intro m hsz hp hc hs
      cases m with
      | nil =>
        exact ⟨[], by simp [marshalSortedEntries], by simp, by simp [unmarshalSortedFields]⟩
      | cons hd rest =>
        obtain ⟨k, v⟩ := hd
        have h1 : psize v < n := by simp [msizeE] at hsz; omega
        have h2 : msizeE rest < n := by simp [msizeE] at hsz; omega
        simp only [plainEntries, Bool.and_eq_true] at hp
        simp only [canonicalEntries, Bool.and_eq_true] at hc
        simp only [sniffFreeEntries, Bool.and_eq_true] at hs
        obtain ⟨w, hw, hwu⟩ := (ih (psize v) h1).1 v le_rfl hp.1 hc.1 hs.1
        obtain ⟨fs, hfs, hkeys, hun⟩ := (ih (msizeE rest) h2).2.2 rest le_rfl hp.2 hc.2 hs.2
        refine ⟨(k, w) :: fs, ?_, ?_, ?_⟩
        · conv_lhs => rw [marshalSortedEntries]
          rw [plain_not_output hp.1, hw, hfs]
          simp [defaultOpts]
        · simp [hkeys]
        · conv_lhs => rw [unmarshalSortedFields]
          rw [hwu]
          simp [plain_not_computed hp.1, hun, show defaultOpts.SkipNulls = false from rfl]

/-- C1 (amended): for every Property Value built only from the
Null/Bool/Number/String/Array/Object variants, in canonical key-sorted form
(the unique association-list representation of a Go map), and none of whose
nested object maps is recognized by the Asset or Archive recognizer,
unmarshaling the marshaled wire form (default Marshal Options) yields the
original value, marshaled fully known.  (Without the recognizer restriction
the claim fails: an object shaped like a serialized Asset is sniffed back as
a typed Asset — see the counterexample.) -/
theorem C1_roundtrip (v : PropertyValue)
    (hp : plainValue v = true) (hc : canonicalValue v = true) (hs : sniffFree v = true) :
    ∃ w, MarshalPropertyValue v defaultOpts = some (w, true) ∧
      UnmarshalPropertyValue w defaultOpts = some v :=
  (roundtrip_aux (psize v)).1 v le_rfl hp hc hs

/-- C1 witness: the amended theorem applied to the canonical, sniff-free
object `{"a": 1, "b": ["s", Null]}`. -/
theorem C1_witness :
    plainValue (.object [("a", PropertyValue.number 1),
      ("b", PropertyValue.array [.string ("s"), .null])]) = true ∧
    ∃ w, MarshalPropertyValue (.object [("a", PropertyValue.number 1),
        ("b", PropertyValue.array [.string ("s"), .null])]) defaultOpts = some (w, true) ∧
      UnmarshalPropertyValue w defaultOpts = some (.object [("a", PropertyValue.number 1),
        ("b", PropertyValue.array [.string ("s"), .null])]) := by
  constructor
  · simp [plainValue, plainList, plainEntries]
  · refine C1_roundtrip _ ?_ ?_ ?_
    · simp [plainValue, plainList, plainEntries]
    · simp [canonicalValue, canonicalList, canonicalEntries, keysStrictSorted,
        strLt, charsLt, UInt32.size]
    · simp [sniffFree, sniffFreeList, sniffFreeEntries, DeserializeAsset, DeserializeArchive,
        hasSig, lookupKey, SigKey, AssetSig, ArchiveSig]

/-- C1 counterexample: the Object `{"sig": "asset", "text": "x"}` is built
only from the Object and String variants, yet unmarshaling its marshaled
wire form yields a typed Asset, not a value structurally equal to the
original Object — the struct sniff of `UnmarshalPropertyValue` recognizes
the serialized-Asset shape. -/
theorem C1_counterexample :
    plainValue (.object [("sig", PropertyValue.string ("asset")),
      ("text", PropertyValue.string ("x"))]) = true ∧
    MarshalPropertyValue (.object [("sig", PropertyValue.string ("asset")),
        ("text", PropertyValue.string ("x"))]) defaultOpts =
      some (.struct [("sig", WireValue.string ("asset")), ("text", WireValue.string ("x"))], true) ∧
    UnmarshalPropertyValue
        (.struct [("sig", WireValue.string ("asset")), ("text", WireValue.string ("x"))])
        defaultOpts = some (.asset (.text ("x"))) ∧
    PropertyValue.asset (.text ("x")) ≠
      .object [("sig", PropertyValue.string ("asset")), ("text", PropertyValue.string ("x"))] := by
  refine ⟨by simp [plainValue, plainEntries], ?_, ?_, by simp⟩
  · simp [MarshalPropertyValue, MarshalPropertiesWithUnknowns, marshalSortedEntries,
      sortEntries, List.insertionSort, List.orderedInsert, strLe, strLt, charsLt,
      PropertyValue.IsOutput, PropertyValue.IsNull, MarshalString, MarshalStruct,
      defaultOpts, UInt32.size]
  · simp [UnmarshalPropertyValue, UnmarshalProperties, unmarshalSortedFields,
      sortEntries, List.insertionSort, List.orderedInsert, strLe, strLt, charsLt,
      PropertyValue.IsComputed, PropertyValue.IsNull, defaultOpts, UInt32.size,
      DeserializeAsset, DeserializeArchive, hasSig, lookupKey, SigKey, AssetSig, ArchiveSig]
